import Mathlib

/-!
# LSNP protocol core — a shallow embedding

A verification development for the LSNP repository (an UDP social/messaging
protocol implemented in `lsnp.py`, `server.py` and `client.py`).

Modelling conventions:
* Python strings are modelled as `List Char` (`Str`).  A Lean string literal
  `"x"` is turned into this representation with `.data`.  The Python string
  operations used by the code (`str.strip`, `str.splitlines`, `str.split`,
  `str.startswith`, `str.endswith`, `in`, `int(...)`) are defined below over
  `List Char`, mirroring Python semantics on the character repertoire the
  protocol uses.  `splitOnNl` models `str.splitlines` restricted to `'\n'`
  separators (the only line break the message builders emit); the exotic
  line-break characters Python would additionally split on are excluded by
  hypothesis where they matter.
* Unix timestamps (`time.time()`) are modelled as `Int` (the code only
  compares them).
* Python `dict`s are modelled as insertion-ordered association lists; an
  update to an existing key keeps its position, which is exactly CPython's
  behaviour.
* Network and file-system side effects are returned as explicit effect lists.
-/

/-! ## Python string model -/

abbrev Str := List Char

/-- The characters Python's `str.strip()` removes (ASCII fragment). -/
def isPySpace (c : Char) : Bool :=
  c = ' ' || c = '\t' || c = '\n' || c = '\x0d' || c = '\x0b' || c = '\x0c'

/-- Characters Python's `str.splitlines` treats as a line boundary. -/
def isPyLineBreak (c : Char) : Bool :=
  c = '\n' || c = '\x0d' || c = '\x0b' || c = '\x0c' ||
  c = '\x1c' || c = '\x1d' || c = '\x1e' || c = '\x85' ||
  c = '\u2028' || c = '\u2029'

def stripLeft (s : Str) : Str := s.dropWhile isPySpace

def stripRight (s : Str) : Str := (s.reverse.dropWhile isPySpace).reverse

/-- Python `str.strip()`. -/
def pyStrip (s : Str) : Str := stripRight (stripLeft s)

/-- Python `str.startswith(p)`. -/
def leadsWith : Str → Str → Bool
  | [], _ => true
  | _ :: _, [] => false
  | p :: ps, c :: cs => p = c && leadsWith ps cs

/-- Python `str.endswith("\n\n")`. -/
def endsWithNlNl (s : Str) : Bool :=
  match s.reverse with
  | c1 :: c2 :: _ => c1 = '\n' && c2 = '\n'
  | _ => false

/-- Python `str.endswith("\n")`. -/
def endsWithNl (s : Str) : Bool :=
  match s.reverse with
  | c :: _ => c = '\n'
  | _ => false

/-- Split on a separator character, keeping empty components
(Python `str.split(sep)` for a one-character separator). -/
def splitOnSep (sep : Char) : Str → List Str
  | [] => [[]]
  | c :: rest =>
    if c = sep then [] :: splitOnSep sep rest
    else
      match splitOnSep sep rest with
      | l :: ls => (c :: l) :: ls
      | [] => [[c]]

/-- `str.splitlines()` restricted to `'\n'` (see the module comment), except
that a trailing separator yields a final empty component; the parsers below
strip and drop blank components, so the difference is invisible to them. -/
def splitOnNl (s : Str) : List Str := splitOnSep '\n' s

/-- Python `"\n".join(lines)` (used to reason about the builders, which emit
one header per line joined by `'\n'`). -/
def joinNl : List Str → Str
  | [] => []
  | [l] => l
  | l :: rest => l ++ '\n' :: joinNl rest

/-- Python `line.split(":", 1)`: the part before the first `':'` and the part
after it (the whole line and `[]` if there is no `':'`; the callers guard on
`':' in line`). -/
def splitFirstColon : Str → Str × Str
  | [] => ([], [])
  | c :: rest =>
    if c = ':' then ([], rest)
    else
      let p := splitFirstColon rest
      (c :: p.1, p.2)

def digitVal (c : Char) : Option Nat :=
  if '0' ≤ c ∧ c ≤ '9' then some (c.toNat - '0'.toNat) else none

def parseDigitsAux : List Char → Nat → Option Nat
  | [], acc => some acc
  | c :: rest, acc =>
    match digitVal c with
    | some d => parseDigitsAux rest (acc * 10 + d)
    | none => none

/-- A non-empty all-digit string to a natural number. -/
def parseDigits : Str → Option Nat
  | [] => none
  | s => parseDigitsAux s 0

/-- Python `int(s)` (sign and digits; the surrounding-whitespace tolerance of
`int` is not needed by any theorem below). `none` models `int` raising. -/
def parseInt (s : Str) : Option Int :=
  match s with
  | '-' :: rest => (parseDigits rest).map fun n => -(n : Int)
  | '+' :: rest => (parseDigits rest).map fun n => (n : Int)
  | _ => (parseDigits s).map fun n => (n : Int)

/-- First-match lookup in an association list (Python `dict` read). -/
def lookupA {κ β : Type} [DecidableEq κ] : List (κ × β) → κ → Option β
  | [], _ => none
  | (k, v) :: rest, x => if k = x then some v else lookupA rest x

/-- `lsnp.extract_field(msg, key)`: the first line starting with `key + ":"`,
split at its first `':'`, value stripped; `none` when no line matches. -/
def findFieldLine (key : Str) : List Str → Option Str
  | [] => none
  | l :: rest => if leadsWith (key ++ [':']) l then some l else findFieldLine key rest

def extract_field (msg key : Str) : Option Str :=
  match findFieldLine key (splitOnNl msg) with
  | none => none
  | some l => some (pyStrip (splitFirstColon l).2)

/-! ## Token authority

Two validators exist in the repository.

`lsnp.validate_token(token, required_scope)` checks the local token store:
the token must be a known key, not revoked, not expired, and its stored
scope must equal the required scope.  No subject is stored or compared.

`server.validate_token(token, sender_id)` decodes `subject|expiry|scope`
tokens: the subject must equal the claimed sender, the expiry must not have
passed, and the scope must equal the literal `"chat"` (not a per-operation
required scope).  No revocation set exists in `server.py`. -/

structure TokenRec where
  scope : Str
  expiry : Int
  revoked : Bool
deriving DecidableEq

/-- `lsnp.validate_token` over the `tokens` store. -/
def validate_token (tokens : List (Str × TokenRec)) (now : Int)
    (token required_scope : Str) : Bool :=
  match lookupA tokens token with
  | none => false
  | some t =>
    if t.revoked = true ∨ t.expiry < now then false
    else decide (t.scope = required_scope)

/-- `server.validate_token`.  `parseInt` failing models `int(parts[1])`
raising, which the surrounding `except` turns into `False`. -/
def server_validate_token (now : Int) (token sender_id : Str) : Bool :=
  match splitOnSep '|' token with
  | [u, es, sc] =>
    match parseInt es with
    | none => false
    | some e =>
      if u ≠ sender_id then false
      else if now > e then false
      else if sc ≠ "chat".data then false
      else true
  | _ => false

/-- Modelled from the spec (for comparison only): `validate(token,
requiredScope, claimedSubject)` accepts iff the token is well-formed
`subject|expiry|scope`, not in the revocation set, not expired, its scope
equals the required scope and its subject equals the claimed sender. -/
def spec_validate (revoked : List Str) (now : Int)
    (token requiredScope claimedSubject : Str) : Bool :=
  match splitOnSep '|' token with
  | [subj, es, sc] =>
    match parseInt es with
    | none => false
    | some e =>
      decide (token ∉ revoked) && decide (now ≤ e) &&
      decide (sc = requiredScope) && decide (subj = claimedSubject)
  | _ => false

/-- Claim C1 counterexample: a token that satisfies all four conjuncts of the
claimed acceptance rule — not revoked (the revocation set is empty), not
expired (500 ≤ 1000), scope `file` equal to the operation's required scope
`file`, subject `alice` equal to the claimed sender — is nevertheless
rejected by the repository's subject-checking validator, because
`server.validate_token` compares the scope against the literal `"chat"`
instead of the operation's required scope. -/
theorem validate_token_scope_counterexample :
    spec_validate [] 500 "alice|1000|file".data "file".data "alice".data = true ∧
    server_validate_token 500 "alice|1000|file".data "alice".data = false := by
  decide

/-- Claim C1 (amended): `lsnp.validate_token` accepts a token iff it is in
the local store, not revoked, not expired, and its stored scope equals the
required scope — the subject is never compared; `server.validate_token`
accepts iff the token decodes as `sender|expiry|scope` with the subject equal
to the claimed sender, the expiry not passed, and the scope equal to the
literal `"chat"` — revocation is never consulted. -/
theorem validate_token_characterization :
    (∀ (tokens : List (Str × TokenRec)) (now : Int) (tok req : Str),
      validate_token tokens now tok req = true ↔
        ∃ r, lookupA tokens tok = some r ∧ r.revoked = false ∧
          now ≤ r.expiry ∧ r.scope = req) ∧
    (∀ (now : Int) (tok sender : Str),
      server_validate_token now tok sender = true ↔
        ∃ es e, splitOnSep '|' tok = [sender, es, "chat".data] ∧
          parseInt es = some e ∧ now ≤ e) := by
  constructor
  · intro tokens now tok req
    unfold validate_token
    cases h : lookupA tokens tok with
    | none => simp
    | some r =>
      by_cases hc : r.revoked = true ∨ r.expiry < now
      · simp only [if_pos hc]
        constructor
        · intro hfalse; cases hfalse
        · rintro ⟨r', hr', hrev, hexp, _⟩
          obtain rfl : r = r' := by simpa using hr'
          rcases hc with hc | hc
          · rw [hc] at hrev; cases hrev
          · omega
      · simp only [if_neg hc]
        push_neg at hc
        constructor
        · intro hv
          exact ⟨r, rfl, by simpa using hc.1, by omega, of_decide_eq_true hv⟩
        · rintro ⟨r', hr', _, _, hsc⟩
          obtain rfl : r = r' := by simpa using hr'
          exact decide_eq_true hsc
  · intro now tok sender
    unfold server_validate_token
    constructor
    · intro h
      split at h
      next u es sc heq =>
        cases hp : parseInt es with
        | none => rw [hp] at h; cases h
        | some e =>
          rw [hp] at h
          by_cases h1 : u = sender
          · by_cases h2 : now > e
            · simp [h1, h2] at h
            · by_cases h3 : sc = "chat".data
              · exact ⟨es, e, by rw [heq, h1, h3], hp, by omega⟩
              · simp [h1, h2, h3] at h
          · simp [h1] at h
      next => cases h
    · rintro ⟨es, e, hsp, hp, he⟩
      rw [hsp]
      simp only [hp]
      simp [he, not_lt.mpr he]

/-! ## Inbound dispatch (`lsnp.listen_loop`)

The per-datagram pipeline of `lsnp.listen_loop`: terminator check, TYPE
check, FROM identity/IP check, token check; a message that survives is
queued for `process_messages` and, when it carries a non-empty MSGID, an
ACK is sent back.  Decoding (`errors='ignore'`) and `is_valid_utf8` cannot
fail in the model, since `Str` is always valid text. -/

/-- What `listen_loop` does with one datagram: the queue entry it appends
(`none` when the message is dropped) and the MSGID it ACKs (`none` when no
ACK is sent). -/
structure ListenOutcome where
  queued : Option (Str × Str)
  ack : Option Str
deriving DecidableEq

/-- The dispatcher's TYPE → required-scope table (`scopes` in
`lsnp.listen_loop`). -/
def scope_table : List (Str × Str) :=
  [("POST".data, "chat".data), ("DM".data, "dm".data),
   ("FOLLOW".data, "follow".data), ("LIKE".data, "like".data),
   ("FILE_OFFER".data, "file".data), ("FILE_CHUNK".data, "file".data),
   ("TICTACTOE_MOVE".data, "game".data), ("GROUP_MESSAGE".data, "group".data)]

/-- The FROM identity check of `lsnp.listen_loop`: drop when a non-empty
FROM value contains `'@'` and its embedded IP differs from the transport
source.  (`claimed_from.split("@")[1]` is the segment after the first
`'@'`.) -/
def from_ip_mismatch (raw ip : Str) : Bool :=
  match extract_field raw "FROM".data with
  | none => false
  | some f =>
    decide (f ≠ []) && f.contains '@' &&
    decide ((splitOnSep '@' f).getD 1 [] ≠ ip)

/-- The token check of `lsnp.listen_loop`: drop only when the TYPE requires
a scope AND the message carries a non-empty TOKEN AND that token fails
`validate_token`.  (A missing or empty token is falsy in
`required_scope and token and not validate_token(...)`, so the check is
skipped for it.) -/
def token_invalid (tokens : List (Str × TokenRec)) (now : Int)
    (raw ty : Str) : Bool :=
  match lookupA scope_table ty, extract_field raw "TOKEN".data with
  | some rs, some tok => decide (tok ≠ []) && ¬ validate_token tokens now tok rs
  | _, _ => false

/-- The ACK decision of `lsnp.listen_loop`: a queued message with a
non-empty MSGID is answered with an ACK for that id. -/
def listen_ack (raw : Str) : Option Str :=
  match extract_field raw "MSGID".data with
  | some m => if m ≠ [] then some m else none
  | none => none

/-- One iteration of `lsnp.listen_loop` on a received datagram `raw` whose
transport source address is `ip`. -/
def listen_step (tokens : List (Str × TokenRec)) (now : Int)
    (raw ip : Str) : ListenOutcome :=
  if ¬ endsWithNlNl raw = true then ⟨none, none⟩
  else
    match extract_field raw "TYPE".data with
    | none => ⟨none, none⟩
    | some ty =>
      if ty = [] then ⟨none, none⟩
      else if from_ip_mismatch raw ip then ⟨none, none⟩
      else if token_invalid tokens now raw ty then ⟨none, none⟩
      else ⟨some (ty, raw), listen_ack raw⟩

/-- Claim C5 counterexample: a PROFILE datagram whose USER_ID identity
header embeds IP `10.0.0.1` but whose actual transport source is
`10.0.0.2` is accepted and queued for dispatch — `listen_loop` only ever
checks the FROM header, so USER_ID-borne identities are never verified. -/
theorem listen_userid_spoof_counterexample :
    (listen_step [] 0 "TYPE: PROFILE\nUSER_ID: alice@10.0.0.1\n\n".data
        "10.0.0.2".data).queued =
      some ("PROFILE".data, "TYPE: PROFILE\nUSER_ID: alice@10.0.0.1\n\n".data) := by
  decide

/-- Claim C5 (amended): only the FROM identity header is verified against
the transport source: whenever the datagram carries a non-empty FROM value
containing `'@'` whose embedded IP differs from the source address, the
message is dropped before dispatch — nothing is queued and no ACK is sent —
regardless of its TYPE.  A mismatching IP embedded in USER_ID alone is not
checked (see the counterexample). -/
theorem listen_from_mismatch_rejected (tokens : List (Str × TokenRec))
    (now : Int) (raw ip f : Str)
    (hf : extract_field raw "FROM".data = some f) (hne : f ≠ [])
    (hat : f.contains '@' = true)
    (hmis : (splitOnSep '@' f).getD 1 [] ≠ ip) :
    listen_step tokens now raw ip = ⟨none, none⟩ := by
  have hdrop : from_ip_mismatch raw ip = true := by
    unfold from_ip_mismatch
    rw [hf]
    simp only [Bool.and_eq_true, decide_eq_true_eq]
    exact ⟨⟨hne, hat⟩, hmis⟩
  unfold listen_step
  by_cases h1 : ¬ endsWithNlNl raw = true
  · simp [h1]
  · simp only [h1, if_false]
    cases hty : extract_field raw "TYPE".data with
    | none => rfl
    | some ty =>
      by_cases h2 : ty = []
      · simp [h2]
      · simp [h2, hdrop]

/-- Claim C5 witness. -/
theorem listen_from_mismatch_rejected_witness :
    listen_step [] 0 "TYPE: DM\nFROM: alice@10.0.0.1\n\n".data "10.0.0.2".data
      = ⟨none, none⟩ :=
  listen_from_mismatch_rejected [] 0 _ _ "alice@10.0.0.1".data
    (by decide) (by decide) (by decide) (by decide)

/-- Claim C7 counterexample: a DM — a TYPE whose required scope is `dm` in
the dispatcher's scope table — carrying no TOKEN at all is NOT dropped:
`listen_loop` queues it for its handler and even sends an ACK back for its
MSGID, because the guard `required_scope and token and not
validate_token(...)` skips validation whenever the token is missing (or
empty). -/
theorem listen_missing_token_counterexample :
    lookupA scope_table "DM".data = some "dm".data ∧
    extract_field "TYPE: DM\nMSGID: m1\n\n".data "TOKEN".data = none ∧
    listen_step [] 0 "TYPE: DM\nMSGID: m1\n\n".data "9.9.9.9".data =
      ⟨some ("DM".data, "TYPE: DM\nMSGID: m1\n\n".data), some "m1".data⟩ := by
  refine ⟨by decide, by decide, by decide⟩

/-- Claim C7 (amended): when a message's TYPE requires a scope and it
carries a non-empty token that fails validation, it is dropped before its
handler runs and no reply of any kind (not even an ACK) is sent; a scoped
message carrying NO token, however, is not dropped (see the
counterexample). -/
theorem listen_invalid_token_rejected (tokens : List (Str × TokenRec))
    (now : Int) (raw ip ty rs tok : Str)
    (hty : extract_field raw "TYPE".data = some ty)
    (hrs : lookupA scope_table ty = some rs)
    (htok : extract_field raw "TOKEN".data = some tok) (hne : tok ≠ [])
    (hval : validate_token tokens now tok rs = false) :
    listen_step tokens now raw ip = ⟨none, none⟩ := by
  have hdrop : token_invalid tokens now raw ty = true := by
    unfold token_invalid
    rw [hrs, htok]
    simp only [Bool.and_eq_true, decide_eq_true_eq]
    exact ⟨hne, by simp [hval]⟩
  unfold listen_step
  by_cases h1 : ¬ endsWithNlNl raw = true
  · simp [h1]
  · simp only [h1, if_false]
    rw [hty]
    by_cases h2 : ty = []
    · simp [h2]
    · by_cases h3 : from_ip_mismatch raw ip = true
      · simp [h2, h3]
      · simp [h2, h3, hdrop]

/-- Claim C7 witness: a DM with a token that is not in the local store. -/
theorem listen_invalid_token_rejected_witness :
    listen_step [] 0 "TYPE: DM\nTOKEN: tkn_dm_1\nMSGID: m2\n\n".data
      "9.9.9.9".data = ⟨none, none⟩ :=
  listen_invalid_token_rejected [] 0 _ _ "DM".data "dm".data "tkn_dm_1".data
    (by decide) (by decide) (by decide) (by decide) (by decide)

/-! ## Reliable delivery (`lsnp.send_with_retry`)

`send_with_retry` appends `TOKEN` and `MSGID` headers to the payload once,
then loops up to `MAX_RETRIES` times: transmit, then poll the shared
`message_queue` for up to `ACK_TIMEOUT` seconds for an entry of type `ACK`
whose MSGID field equals the fresh message id, removing the matching entry.
The model abstracts real time into observation windows: `arrivals k` is the
list of queue entries that become visible during attempt `k`'s wait window;
entries that produced no match stay in the queue for later attempts, exactly
as in the code. -/

/-- An entry of `message_queue` (the fields `send_with_retry` reads). -/
structure QEntry where
  qtype : Str
  raw : Str
deriving DecidableEq

/-- The match test of `send_with_retry`'s scan:
`m["type"] == "ACK" and extract_field(m["raw"], "MSGID") == msg_id`. -/
def isMatchingAck (msgId : Str) (m : QEntry) : Bool :=
  decide (m.qtype = "ACK".data) &&
  decide (extract_field m.raw "MSGID".data = some msgId)

/-- Scan the queue for the first matching ACK; `some q'` removes it
(`message_queue.remove(m)`), `none` means no match. -/
def findRemoveAck (msgId : Str) : List QEntry → Option (List QEntry)
  | [] => none
  | m :: rest =>
    if isMatchingAck msgId m then some rest
    else
      match findRemoveAck msgId rest with
      | some rest' => some (m :: rest')
      | none => none

def MAX_RETRIES : Nat := 3

/-- The retry loop: `fuel` is `MAX_RETRIES - retries`.  Returns whether the
send was ACKed, the list of transmitted datagrams (in order), and the final
queue.  Each attempt transmits `fullMsg`, then sees the entries of its wait
window appended to the queue and scans. -/
def sendRetryGo (fullMsg msgId : Str) (arrivals : Nat → List QEntry) :
    Nat → Nat → List QEntry → Bool × List Str × List QEntry
  | _, 0, q => (false, [], q)
  | attempt, fuel + 1, q =>
    match findRemoveAck msgId (q ++ arrivals attempt) with
    | some q2 => (true, [fullMsg], q2)
    | none =>
      ((sendRetryGo fullMsg msgId arrivals (attempt + 1) fuel (q ++ arrivals attempt)).1,
       fullMsg ::
         (sendRetryGo fullMsg msgId arrivals (attempt + 1) fuel (q ++ arrivals attempt)).2.1,
       (sendRetryGo fullMsg msgId arrivals (attempt + 1) fuel (q ++ arrivals attempt)).2.2)

/-- The payload actually transmitted: the message with `TOKEN` and `MSGID`
headers and the blank-line terminator appended (built once, before the
loop). -/
def buildRetryMsg (msg token msgId : Str) : Str :=
  (if endsWithNl msg then msg else msg ++ ['\n']) ++
  "TOKEN: ".data ++ token ++ ['\n'] ++ "MSGID: ".data ++ msgId ++ "\n\n".data

/-- `lsnp.send_with_retry(msg, dest_ip, msg_id, scope)`.  `token` stands for
the token `create_token(scope)` returned; `q0` is the content of
`message_queue` when the call starts. -/
def send_with_retry (msg token msgId : Str) (arrivals : Nat → List QEntry)
    (q0 : List QEntry) : Bool × List Str × List QEntry :=
  sendRetryGo (buildRetryMsg msg token msgId) msgId arrivals 0 MAX_RETRIES q0

/-- `findRemoveAck` finds nothing iff no entry matches. -/
theorem findRemoveAck_eq_none (msgId : Str) (q : List QEntry) :
    findRemoveAck msgId q = none ↔ ∀ m ∈ q, isMatchingAck msgId m = false := by
  induction q with
  | nil => simp [findRemoveAck]
  | cons m rest ih =>
    unfold findRemoveAck
    by_cases hm : isMatchingAck msgId m
    · simp only [if_pos hm]
      constructor
      · intro h; cases h
      · intro hall
        exact absurd hm (by rw [hall m (List.mem_cons_self m rest)]; decide)
    · simp only [if_neg hm]
      cases hr : findRemoveAck msgId rest with
      | some q' =>
        constructor
        · intro h; cases h
        · intro hall
          have : findRemoveAck msgId rest = none :=
            ih.2 fun x hx => hall x (List.mem_cons_of_mem m hx)
          rw [this] at hr; cases hr
      | none =>
        constructor
        · intro _ x hx
          rcases List.mem_cons.1 hx with rfl | hx'
          · exact Bool.eq_false_iff.2 hm
          · exact (ih.1 hr) x hx'
        · intro _; rfl

/-- Unfolding equation for the successor case of the retry loop. -/
theorem sendRetryGo_succ_eq (fullMsg msgId : Str) (arrivals : Nat → List QEntry)
    (attempt fuel : Nat) (q : List QEntry) :
    sendRetryGo fullMsg msgId arrivals attempt (fuel + 1) q =
      match findRemoveAck msgId (q ++ arrivals attempt) with
      | some q2 => (true, [fullMsg], q2)
      | none =>
        ((sendRetryGo fullMsg msgId arrivals (attempt + 1) fuel (q ++ arrivals attempt)).1,
         fullMsg ::
           (sendRetryGo fullMsg msgId arrivals (attempt + 1) fuel
             (q ++ arrivals attempt)).2.1,
         (sendRetryGo fullMsg msgId arrivals (attempt + 1) fuel
           (q ++ arrivals attempt)).2.2) := by
  rfl

/-- The core induction for `send_with_retry`: starting from a queue with no
matching ACK, the loop succeeds iff some window within the remaining budget
delivers a matching ACK; every transmission is the identical payload; a
failed run transmits exactly `fuel` times and then stops. -/
theorem sendRetryGo_spec (fullMsg msgId : Str) (arrivals : Nat → List QEntry) :
    ∀ (fuel attempt : Nat) (q : List QEntry),
      (∀ m ∈ q, isMatchingAck msgId m = false) →
      ((sendRetryGo fullMsg msgId arrivals attempt fuel q).1 = true ↔
        ∃ j < fuel, ∃ m ∈ arrivals (attempt + j), isMatchingAck msgId m = true) ∧
      (∃ t ≤ fuel, (sendRetryGo fullMsg msgId arrivals attempt fuel q).2.1 =
        List.replicate t fullMsg) ∧
      ((sendRetryGo fullMsg msgId arrivals attempt fuel q).1 = false →
        (sendRetryGo fullMsg msgId arrivals attempt fuel q).2.1 =
          List.replicate fuel fullMsg) := by
  intro fuel
  induction fuel with
  | zero =>
    intro attempt q _
    refine ⟨by simp [sendRetryGo], ⟨0, le_rfl, by simp [sendRetryGo]⟩,
      fun _ => by simp [sendRetryGo]⟩
  | succ fuel ih =>
    intro attempt q hq
    cases hfind : findRemoveAck msgId (q ++ arrivals attempt) with
    | some q2 =>
      have hres : sendRetryGo fullMsg msgId arrivals attempt (fuel + 1) q =
          (true, [fullMsg], q2) := by
        rw [sendRetryGo_succ_eq, hfind]
      rw [hres]
      have hex : ∃ m ∈ arrivals attempt, isMatchingAck msgId m = true := by
        by_contra hno
        push_neg at hno
        have hall : ∀ m ∈ q ++ arrivals attempt, isMatchingAck msgId m = false := by
          intro m hm
          rcases List.mem_append.1 hm with h | h
          · exact hq m h
          · exact Bool.eq_false_iff.2 (hno m h)
        rw [(findRemoveAck_eq_none msgId _).2 hall] at hfind
        cases hfind
      refine ⟨?_, ⟨1, by omega, rfl⟩, fun hfalse => by cases hfalse⟩
      simp only [true_iff]
      exact ⟨0, by omega, hex⟩
    | none =>
      have hq1 : ∀ m ∈ q ++ arrivals attempt, isMatchingAck msgId m = false :=
        (findRemoveAck_eq_none msgId _).1 hfind
      have hres : sendRetryGo fullMsg msgId arrivals attempt (fuel + 1) q =
          ((sendRetryGo fullMsg msgId arrivals (attempt + 1) fuel (q ++ arrivals attempt)).1,
           fullMsg ::
             (sendRetryGo fullMsg msgId arrivals (attempt + 1) fuel
               (q ++ arrivals attempt)).2.1,
           (sendRetryGo fullMsg msgId arrivals (attempt + 1) fuel
             (q ++ arrivals attempt)).2.2) := by
        rw [sendRetryGo_succ_eq, hfind]
      rw [hres]
      obtain ⟨hiff, ⟨t, ht, htr⟩, hfail⟩ := ih (attempt + 1) (q ++ arrivals attempt) hq1
      refine ⟨?_, ⟨t + 1, by omega, by rw [htr, List.replicate_succ]⟩, ?_⟩
      · rw [hiff]
        constructor
        · rintro ⟨j, hj, m, hm, hmt⟩
          refine ⟨j + 1, by omega, m, ?_, hmt⟩
          have harith : attempt + (j + 1) = attempt + 1 + j := by omega
          rw [harith]
          exact hm
        · rintro ⟨j, hj, m, hm, hmt⟩
          cases j with
          | zero =>
            exfalso
            have hfls := hq1 m (List.mem_append.2 (Or.inr (by simpa using hm)))
            rw [hmt] at hfls
            cases hfls
          | succ j' =>
            refine ⟨j', by omega, m, ?_, hmt⟩
            have harith : attempt + 1 + j' = attempt + (j' + 1) := by omega
            rw [harith]
            exact hm
      · intro hfalse
        rw [hfail hfalse, List.replicate_succ]

/-- Claim C2: with a fresh message id (no matching ACK already queued),
`send_with_retry` returns success iff one of the `MAX_RETRIES` wait windows
delivers an ACK entry whose MSGID equals the message id (correlation is by
id equality only); every transmission is the identical payload (the message
with TOKEN and MSGID appended), at most `MAX_RETRIES` transmissions occur,
and a failing call transmits exactly `MAX_RETRIES` times and then performs
no further transmissions — it just returns `False`. -/
theorem send_with_retry_spec (msg token msgId : Str)
    (arrivals : Nat → List QEntry) (q0 : List QEntry)
    (hfresh : ∀ m ∈ q0, isMatchingAck msgId m = false) :
    ((send_with_retry msg token msgId arrivals q0).1 = true ↔
      ∃ j < MAX_RETRIES, ∃ m ∈ arrivals j, isMatchingAck msgId m = true) ∧
    (∃ t ≤ MAX_RETRIES, (send_with_retry msg token msgId arrivals q0).2.1 =
      List.replicate t (buildRetryMsg msg token msgId)) ∧
    ((send_with_retry msg token msgId arrivals q0).1 = false →
      (send_with_retry msg token msgId arrivals q0).2.1 =
        List.replicate MAX_RETRIES (buildRetryMsg msg token msgId)) := by
  have h := sendRetryGo_spec (buildRetryMsg msg token msgId) msgId arrivals
    MAX_RETRIES 0 q0 hfresh
  simpa [send_with_retry] using h

/-- A concrete ACK arrival schedule: the matching ACK becomes visible during
the second wait window. -/
def ackWindowTwo : Nat → List QEntry := fun k =>
  if k = 1 then [⟨"ACK".data, "TYPE: ACK\nMSGID: m7\n\n".data⟩] else []

/-- Claim C2 witness: a send whose ACK arrives during the second wait
window, starting from an empty queue. -/
theorem send_with_retry_spec_witness :
    ((send_with_retry "TYPE: DM".data "tkn_dm_7".data "m7".data ackWindowTwo []).1
        = true ↔
      ∃ j < MAX_RETRIES, ∃ m ∈ ackWindowTwo j, isMatchingAck "m7".data m = true) ∧
    (∃ t ≤ MAX_RETRIES,
      (send_with_retry "TYPE: DM".data "tkn_dm_7".data "m7".data ackWindowTwo []).2.1 =
        List.replicate t (buildRetryMsg "TYPE: DM".data "tkn_dm_7".data "m7".data)) ∧
    ((send_with_retry "TYPE: DM".data "tkn_dm_7".data "m7".data ackWindowTwo []).1
        = false →
      (send_with_retry "TYPE: DM".data "tkn_dm_7".data "m7".data ackWindowTwo []).2.1 =
        List.replicate MAX_RETRIES
          (buildRetryMsg "TYPE: DM".data "tkn_dm_7".data "m7".data)) :=
  send_with_retry_spec "TYPE: DM".data "tkn_dm_7".data "m7".data ackWindowTwo []
    (by intro m hm; cases hm)

/-! ## Game session engine (`lsnp.handle_move`)

`handle_move` processes a received TICTACTOE_MOVE.  The board is modelled
flat: Python's `board[pos // 3][pos % 3]` is cell `pos` of a 9-cell list
(for `0 ≤ pos < 9` the two indexings coincide; outside that range Python
raises, and every theorem below stays inside it). -/

structure GameState where
  player_x : Str
  player_o : Str
  board : List (Option Str)
  turn : Nat
  moves : List (Nat × Nat × Str)
  status : Str
deriving DecidableEq

/-- Overwrite the game entry (CPython dict update keeps the position). -/
def updateGame (games : List (Str × GameState)) (gid : Str) (g : GameState) :
    List (Str × GameState) :=
  games.map fun p => if p.1 = gid then (gid, g) else p

/-- `lsnp.handle_move(msg, sender_ip)` with the fields already extracted:
`pos` and `turn` are the parsed POS and TURN headers, `selfId` is the local
`USER_ID`. -/
def handle_move (games : List (Str × GameState)) (selfId gid : Str)
    (pos turn : Nat) : List (Str × GameState) :=
  match lookupA games gid with
  | none => games
  | some g =>
    if turn ≤ g.moves.length then games
    else
      updateGame games gid
        { g with
          board := g.board.set pos
            (some (if selfId = g.player_x then "O".data else "X".data)),
          moves := g.moves ++ [(turn, pos, "opponent".data)],
          turn := turn + 1 }

/-- A fresh game as `lsnp.start_game` / `lsnp.handle_invite` create it. -/
def freshGame (px po : Str) : GameState :=
  ⟨px, po, List.replicate 9 none, 1, [], "active".data⟩

/-- Claim C4 counterexample: in a fresh ACTIVE game (`turn = 1`, no moves
logged, every cell empty), a received move with TURN 5 — which is not
`session.turn + 1 = 2` — is applied anyway: the board gains a symbol, the
move log grows and the turn counter jumps to 6.  The claim requires such a
move to leave board, log and counter unchanged. -/
theorem handle_move_turn_counterexample :
    (freshGame "alice".data "bob".data).status = "active".data ∧
    (freshGame "alice".data "bob".data).board.get? 0 = some none ∧
    (5 : Nat) ≠ (freshGame "alice".data "bob".data).turn + 1 ∧
    handle_move [("g1".data, freshGame "alice".data "bob".data)]
        "alice".data "g1".data 0 5 ≠
      [("g1".data, freshGame "alice".data "bob".data)] := by
  refine ⟨rfl, rfl, by decide, by decide⟩

/-- Claim C4 (amended): a received move is applied iff the game id is known
and the move's TURN strictly exceeds the number of logged moves; nothing
else is checked.  A rejected move (unknown game, or `turn ≤ |moves|`) leaves
the whole game table unchanged; an accepted one writes the local opponent's
fixed symbol (`O` when this node is player X, else `X`) into cell `pos`
regardless of the cell's prior content, appends `(turn, pos, "opponent")`
to the move log, and sets the turn counter to `turn + 1`; session status is
never consulted. -/
theorem handle_move_characterization (games : List (Str × GameState))
    (selfId gid : Str) (pos turn : Nat) :
    (lookupA games gid = none → handle_move games selfId gid pos turn = games) ∧
    (∀ g, lookupA games gid = some g →
      (turn ≤ g.moves.length → handle_move games selfId gid pos turn = games) ∧
      (g.moves.length < turn →
        handle_move games selfId gid pos turn =
          updateGame games gid
            { g with
              board := g.board.set pos
                (some (if selfId = g.player_x then "O".data else "X".data)),
              moves := g.moves ++ [(turn, pos, "opponent".data)],
              turn := turn + 1 })) := by
  constructor
  · intro hnone
    unfold handle_move
    rw [hnone]
  · intro g hg
    constructor
    · intro hle
      unfold handle_move
      rw [hg]
      simp [hle]
    · intro hlt
      unfold handle_move
      rw [hg]
      have : ¬ turn ≤ g.moves.length := by omega
      simp [this]

/-- Claim C4 witness: the first move of a fresh game (TURN 1) is applied. -/
theorem handle_move_characterization_witness :
    handle_move [("g2".data, freshGame "alice".data "bob".data)]
        "bob".data "g2".data 4 1 =
      updateGame [("g2".data, freshGame "alice".data "bob".data)] "g2".data
        { freshGame "alice".data "bob".data with
          board := (freshGame "alice".data "bob".data).board.set 4
            (some "X".data),
          moves := [(1, 4, "opponent".data)],
          turn := 2 } := by
  have h := handle_move_characterization
    [("g2".data, freshGame "alice".data "bob".data)] "bob".data "g2".data 4 1
  have h2 := (h.2 (freshGame "alice".data "bob".data) (by decide)).2 (by decide)
  simpa using h2

/-! ## File transfer — receiver side (`client.py` FILE_CHUNK handling)

The receiver keeps `incoming_files[file_id]` records.  Chunk payloads are
modelled post-base64-decode as byte lists (`base64.b64decode` succeeding;
its failure path only marks the transfer failed).  Besides mutating the
record, the handler may save the reassembled file and send a FILE_RECEIVED
acknowledgment; those are returned as explicit effects. -/

inductive FStatus
  | pending
  | receiving
  | complete
  | ignored
  | failed
deriving DecidableEq

structure FileInfo where
  fromUser : Str
  filename : Str
  totalChunks : Nat
  receivedChunks : List (Nat × List Nat)
  lastChunkTime : Int
  status : FStatus
deriving DecidableEq

inductive FileEffect
  | saveFile (filename : Str) (contents : List Nat)
  | fileReceivedMsg (toUser fileId stat : Str)
deriving DecidableEq

/-- Concatenation of byte chunks. -/
def concatBytes : List (List Nat) → List Nat
  | [] => []
  | b :: bs => b ++ concatBytes bs

/-- The reassembly loop `for i in range(total): ...`: concatenate the stored
chunk of every listed index in order, `none` as soon as one is missing. -/
def collectChunks (rc : List (Nat × List Nat)) : List Nat → Option (List Nat)
  | [] => some []
  | i :: rest =>
    match lookupA rc i, collectChunks rc rest with
    | some b, some bs => some (b ++ bs)
    | _, _ => none

/-- The FILE_CHUNK branch of `client.py`'s `listen_loop` for a known file
id: `info` is `incoming_files[file_id]`, `data` the decoded chunk bytes.
Returns the updated record and the emitted effects. -/
def client_handle_file_chunk (info : FileInfo) (fromUser fileId : Str)
    (chunkIndex : Nat) (data : List Nat) (now : Int) :
    FileInfo × List FileEffect :=
  match info.status with
  | .ignored => (info, [])
  | .pending => ({ info with status := .ignored }, [])
  | .receiving =>
    if (lookupA info.receivedChunks chunkIndex).isSome then (info, [])
    else
      if info.receivedChunks.length + 1 = info.totalChunks then
        match collectChunks (info.receivedChunks ++ [(chunkIndex, data)])
            (List.range info.totalChunks) with
        | some full =>
          ({ info with
              receivedChunks := info.receivedChunks ++ [(chunkIndex, data)],
              lastChunkTime := now,
              status := .complete },
           [.saveFile info.filename full,
            .fileReceivedMsg fromUser fileId "COMPLETE".data])
        | none =>
          ({ info with
              receivedChunks := info.receivedChunks ++ [(chunkIndex, data)],
              lastChunkTime := now,
              status := .failed }, [])
      else
        ({ info with
            receivedChunks := info.receivedChunks ++ [(chunkIndex, data)],
            lastChunkTime := now }, [])
  | .complete => (info, [])
  | .failed => (info, [])

/-- Fold a list of arriving chunk messages through the handler, collecting
the effects in order. -/
def processChunks (info : FileInfo) (fromUser fileId : Str)
    (msgs : List (Nat × List Nat)) (now : Int) : FileInfo × List FileEffect :=
  match msgs with
  | [] => (info, [])
  | (i, d) :: rest =>
    ((processChunks (client_handle_file_chunk info fromUser fileId i d now).1
        fromUser fileId rest now).1,
     (client_handle_file_chunk info fromUser fileId i d now).2 ++
       (processChunks (client_handle_file_chunk info fromUser fileId i d now).1
         fromUser fileId rest now).2)

/-- Claim C10: once an incoming transfer is `ignored`, a FILE_CHUNK for it
changes nothing — same record (no chunk stored, status still `ignored`) and
no effects (no file saved, no FILE_RECEIVED sent). -/
theorem ignored_chunk_noop (info : FileInfo) (fromUser fileId : Str)
    (chunkIndex : Nat) (data : List Nat) (now : Int)
    (h : info.status = FStatus.ignored) :
    client_handle_file_chunk info fromUser fileId chunkIndex data now =
      (info, []) := by
  unfold client_handle_file_chunk
  rw [h]

/-- Claim C10 witness. -/
theorem ignored_chunk_noop_witness :
    client_handle_file_chunk
        ⟨"bob".data, "f.txt".data, 3, [], 0, FStatus.ignored⟩
        "bob".data "fid9".data 1 [1, 2, 3] 50 =
      (⟨"bob".data, "f.txt".data, 3, [], 0, FStatus.ignored⟩, []) :=
  ignored_chunk_noop _ _ _ _ _ _ rfl

/-- Looking an index up in the buffer built from distinct indices `s` with
per-index data `d`. -/
theorem lookupA_map_self (d : Nat → List Nat) (s : List Nat) (i : Nat) :
    lookupA (s.map fun j => (j, d j)) i = if i ∈ s then some (d i) else none := by
  induction s with
  | nil => simp [lookupA]
  | cons a rest ih =>
    simp only [List.map_cons, lookupA]
    by_cases ha : a = i
    · subst ha
      simp
    · rw [if_neg ha, ih]
      by_cases hi : i ∈ rest
      · rw [if_pos hi, if_pos (List.mem_cons_of_mem a hi)]
      · rw [if_neg hi, if_neg (by simp [List.mem_cons, hi, Ne.symm ha])]

/-- A duplicate-free list of `n` naturals all below `n` contains every
value below `n`. -/
theorem nodup_full_range (s : List Nat) (n : Nat) (hnd : s.Nodup)
    (hlt : ∀ i ∈ s, i < n) (hlen : s.length = n) : ∀ j < n, j ∈ s := by
  intro j hj
  have hsub : s.toFinset ⊆ Finset.range n := fun x hx =>
    Finset.mem_range.2 (hlt x (List.mem_toFinset.1 hx))
  have hcard : (Finset.range n).card ≤ s.toFinset.card := by
    rw [List.toFinset_card_of_nodup hnd, hlen, Finset.card_range]
  have heq := Finset.eq_of_subset_of_card_le hsub hcard
  exact List.mem_toFinset.1 (by rw [heq]; exact Finset.mem_range.2 hj)

/-- When every listed index is present, reassembly concatenates their data
in list order. -/
theorem collectChunks_all (rc : List (Nat × List Nat)) (d : Nat → List Nat) :
    ∀ L : List Nat, (∀ j ∈ L, lookupA rc j = some (d j)) →
      collectChunks rc L = some (concatBytes (L.map d)) := by
  intro L
  induction L with
  | nil => intro _; rfl
  | cons i rest ih =>
    intro h
    unfold collectChunks
    rw [h i (List.mem_cons_self i rest),
      ih fun j hj => h j (List.mem_cons_of_mem i hj)]
    rfl

/-- Unfolding equation for `processChunks` on a cons. -/
theorem processChunks_cons (info : FileInfo) (fromUser fileId : Str)
    (i : Nat) (data : List Nat) (rest : List (Nat × List Nat)) (now : Int) :
    processChunks info fromUser fileId ((i, data) :: rest) now =
      ((processChunks (client_handle_file_chunk info fromUser fileId i data now).1
          fromUser fileId rest now).1,
       (client_handle_file_chunk info fromUser fileId i data now).2 ++
         (processChunks (client_handle_file_chunk info fromUser fileId i data now).1
           fromUser fileId rest now).2) := by
  rfl

/-- `complete`, `failed` and `ignored` are absorbing: further chunks change
nothing and emit nothing (so in particular completion cannot fire twice). -/
theorem processChunks_absorbing (fromUser fileId : Str) (now : Int) :
    ∀ (msgs : List (Nat × List Nat)) (info : FileInfo),
      (info.status = FStatus.complete ∨ info.status = FStatus.failed ∨
        info.status = FStatus.ignored) →
      processChunks info fromUser fileId msgs now = (info, []) := by
  intro msgs
  induction msgs with
  | nil => intro info _; rfl
  | cons m rest ih =>
    intro info h
    obtain ⟨i, data⟩ := m
    have hstep : client_handle_file_chunk info fromUser fileId i data now =
        (info, []) := by
      unfold client_handle_file_chunk
      rcases h with h | h | h <;> rw [h]
    rw [processChunks_cons, hstep]
    simp [ih info h]

/-- Receiving-state step, duplicate index: no-op. -/
theorem handle_chunk_dup (u fn : Str) (n : Nat) (rc : List (Nat × List Nat))
    (t now : Int) (fu fid : Str) (i : Nat) (data : List Nat)
    (h : (lookupA rc i).isSome = true) :
    client_handle_file_chunk ⟨u, fn, n, rc, t, FStatus.receiving⟩ fu fid i data now =
      (⟨u, fn, n, rc, t, FStatus.receiving⟩, []) := by
  unfold client_handle_file_chunk
  simp [h]

/-- Receiving-state step, new index, buffer still short of the total. -/
theorem handle_chunk_new_partial (u fn : Str) (n : Nat)
    (rc : List (Nat × List Nat)) (t now : Int) (fu fid : Str) (i : Nat)
    (data : List Nat) (hnew : lookupA rc i = none)
    (hlen : rc.length + 1 ≠ n) :
    client_handle_file_chunk ⟨u, fn, n, rc, t, FStatus.receiving⟩ fu fid i data now =
      (⟨u, fn, n, rc ++ [(i, data)], now, FStatus.receiving⟩, []) := by
  unfold client_handle_file_chunk
  simp [hnew, hlen]

/-- Receiving-state step, new index, buffer reaches the total and every
index of `range n` is present: complete, save, acknowledge. -/
theorem handle_chunk_new_complete (u fn : Str) (n : Nat)
    (rc : List (Nat × List Nat)) (t now : Int) (fu fid : Str) (i : Nat)
    (data full : List Nat) (hnew : lookupA rc i = none)
    (hlen : rc.length + 1 = n)
    (hcol : collectChunks (rc ++ [(i, data)]) (List.range n) = some full) :
    client_handle_file_chunk ⟨u, fn, n, rc, t, FStatus.receiving⟩ fu fid i data now =
      (⟨u, fn, n, rc ++ [(i, data)], now, FStatus.complete⟩,
       [FileEffect.saveFile fn full,
        FileEffect.fileReceivedMsg fu fid "COMPLETE".data]) := by
  unfold client_handle_file_chunk
  simp [hnew, hlen, hcol]

/-- The induction behind claim C3: from a receiving transfer whose buffer
holds the distinct in-range indices `s` (with their data), processing any
in-range arrival list that together with `s` covers `0..n-1` completes the
transfer and emits exactly one save of the in-order concatenation plus one
COMPLETE acknowledgment. -/
theorem processChunks_cover_aux (n : Nat) (d : Nat → List Nat)
    (u fn fromUser fileId : Str) (now : Int) :
    ∀ (l s : List Nat) (t : Int),
      s.Nodup → (∀ i ∈ s, i < n) → s.length < n → (∀ i ∈ l, i < n) →
      (∀ i < n, i ∈ s ∨ i ∈ l) →
      (processChunks ⟨u, fn, n, s.map fun j => (j, d j), t, FStatus.receiving⟩
          fromUser fileId (l.map fun i => (i, d i)) now).1.status =
        FStatus.complete ∧
      (processChunks ⟨u, fn, n, s.map fun j => (j, d j), t, FStatus.receiving⟩
          fromUser fileId (l.map fun i => (i, d i)) now).2 =
        [FileEffect.saveFile fn (concatBytes ((List.range n).map d)),
         FileEffect.fileReceivedMsg fromUser fileId "COMPLETE".data] := by
  intro l
  induction l with
  | nil =>
    intro s t hnd hib hslen _ hcov
    exfalso
    have hall : ∀ j < n, j ∈ s := fun j hj =>
      (hcov j hj).resolve_right fun h => absurd h (List.not_mem_nil j)
    have hsub : Finset.range n ⊆ s.toFinset := fun x hx =>
      List.mem_toFinset.2 (hall x (Finset.mem_range.1 hx))
    have hle := Finset.card_le_card hsub
    rw [Finset.card_range, List.toFinset_card_of_nodup hnd] at hle
    omega
  | cons i rest ih =>
    intro s t hnd hib hslen hl hcov
    have hi_n : i < n := hl i (List.mem_cons_self i rest)
    simp only [List.map_cons, processChunks_cons]
    by_cases hmem : i ∈ s
    · have hstep := handle_chunk_dup u fn n (s.map fun j => (j, d j)) t now
        fromUser fileId i (d i) (by rw [lookupA_map_self]; simp [hmem])
      rw [hstep]
      have hrec := ih s t hnd hib hslen
        (fun j hj => hl j (List.mem_cons_of_mem i hj))
        (fun j hj => by
          rcases hcov j hj with h | h
          · exact Or.inl h
          · rcases List.mem_cons.1 h with rfl | h'
            · exact Or.inl hmem
            · exact Or.inr h')
      exact ⟨by simpa using hrec.1, by simpa using hrec.2⟩
    · have hlook : lookupA (s.map fun j => (j, d j)) i = none := by
        rw [lookupA_map_self]; simp [hmem]
      have hmapapp : (s.map fun j => (j, d j)) ++ [(i, d i)] =
          (s ++ [i]).map fun j => (j, d j) := by simp
      have hnd' : (s ++ [i]).Nodup := by
        rw [List.nodup_append]
        refine ⟨hnd, List.nodup_singleton i, ?_⟩
        intro a ha hb
        rw [List.mem_singleton] at hb
        subst hb
        exact hmem ha
      have hball : ∀ j ∈ s ++ [i], j < n := by
        intro j hj
        rcases List.mem_append.1 hj with h | h
        · exact hib j h
        · rw [List.mem_singleton] at h; subst h; exact hi_n
      by_cases hfull : s.length + 1 = n
      · have hlen' : (s ++ [i]).length = n := by
          simp only [List.length_append, List.length_singleton]
          omega
        have hall := nodup_full_range (s ++ [i]) n hnd' hball hlen'
        have hcol : collectChunks ((s ++ [i]).map fun j => (j, d j))
            (List.range n) = some (concatBytes ((List.range n).map d)) :=
          collectChunks_all _ d _ fun j hj => by
            rw [lookupA_map_self]
            simp [hall j (List.mem_range.1 hj)]
        have hstep := handle_chunk_new_complete u fn n
          (s.map fun j => (j, d j)) t now fromUser fileId i (d i)
          (concatBytes ((List.range n).map d)) hlook
          (by simpa using hfull) (by rw [hmapapp]; exact hcol)
        rw [hstep]
        have habs := processChunks_absorbing fromUser fileId now
          (rest.map fun i => (i, d i))
          ⟨u, fn, n, (s.map fun j => (j, d j)) ++ [(i, d i)], now,
            FStatus.complete⟩ (Or.inl rfl)
        exact ⟨by rw [habs], by rw [habs]; simp⟩
      · have hstep := handle_chunk_new_partial u fn n
          (s.map fun j => (j, d j)) t now fromUser fileId i (d i) hlook
          (by simpa using hfull)
        rw [hstep]
        have hrec := ih (s ++ [i]) now hnd' hball
          (by simp only [List.length_append, List.length_singleton]; omega)
          (fun j hj => hl j (List.mem_cons_of_mem i hj))
          (fun j hj => by
            rcases hcov j hj with h | h
            · exact Or.inl (List.mem_append.2 (Or.inl h))
            · rcases List.mem_cons.1 h with rfl | h'
              · exact Or.inl (List.mem_append.2 (Or.inr (List.mem_singleton.2 rfl)))
              · exact Or.inr h')
        rw [hmapapp]
        exact ⟨by simpa using hrec.1, by simpa using hrec.2⟩

/-- Claim C3 counterexample: with `total_chunks = 1` and an empty buffer, a
single FILE_CHUNK carrying the out-of-range index 5 is stored in the buffer
and drives the transfer to `failed` (the buffer size matches the total but
index 0 is missing).  Stored-chunk state is corrupted — afterwards even the
genuine chunk 0 can never complete the transfer, `failed` being absorbing. -/
theorem out_of_range_chunk_counterexample :
    client_handle_file_chunk
        ⟨"bob".data, "f.txt".data, 1, [], 0, FStatus.receiving⟩
        "bob".data "fidX".data 5 [42] 7 =
      (⟨"bob".data, "f.txt".data, 1, [(5, [42])], 7, FStatus.failed⟩, []) ∧
    processChunks
        ⟨"bob".data, "f.txt".data, 1, [(5, [42])], 7, FStatus.failed⟩
        "bob".data "fidX".data [(0, [9])] 7 =
      (⟨"bob".data, "f.txt".data, 1, [(5, [42])], 7, FStatus.failed⟩, []) := by
  exact ⟨by rfl, by rfl⟩

/-- Claim C3 (amended): for a receiving transfer with an empty buffer and
`total_chunks = n > 0`, processing any sequence of chunk messages whose
indices are all in range and jointly cover `0..n-1` — in any order, with
any duplicates (which are no-ops) — completes the transfer and emits
exactly one save of the byte-exact concatenation of the chunks in
increasing index order followed by exactly one FILE_RECEIVED/COMPLETE
acknowledgment; nothing further is emitted afterwards.  An OUT-of-range
index, however, is stored like any other and can corrupt the transfer (see
the counterexample), so the in-range hypothesis is necessary. -/
theorem client_reassembly_spec (n : Nat) (d : Nat → List Nat) (l : List Nat)
    (u fn fromUser fileId : Str) (t now : Int) (hn : 0 < n)
    (hin : ∀ i ∈ l, i < n) (hcov : ∀ i < n, i ∈ l) :
    (processChunks ⟨u, fn, n, [], t, FStatus.receiving⟩ fromUser fileId
        (l.map fun i => (i, d i)) now).1.status = FStatus.complete ∧
    (processChunks ⟨u, fn, n, [], t, FStatus.receiving⟩ fromUser fileId
        (l.map fun i => (i, d i)) now).2 =
      [FileEffect.saveFile fn (concatBytes ((List.range n).map d)),
       FileEffect.fileReceivedMsg fromUser fileId "COMPLETE".data] := by
  have h := processChunks_cover_aux n d u fn fromUser fileId now l [] t
    List.nodup_nil (by intro i hi; cases hi) (by simpa using hn) hin
    (fun i hi => Or.inr (hcov i hi))
  simpa using h

/-- Claim C3 witness: three chunks arriving out of order (2, 0, 1) with a
duplicate of 1, reassembled in index order. -/
theorem client_reassembly_spec_witness :
    (processChunks ⟨"bob".data, "f.txt".data, 3, [], 0, FStatus.receiving⟩
        "bob".data "fidW".data
        ([2, 0, 1, 1].map fun i => (i, [i + 10])) 5).1.status =
      FStatus.complete ∧
    (processChunks ⟨"bob".data, "f.txt".data, 3, [], 0, FStatus.receiving⟩
        "bob".data "fidW".data
        ([2, 0, 1, 1].map fun i => (i, [i + 10])) 5).2 =
      [FileEffect.saveFile "f.txt".data
        (concatBytes ((List.range 3).map fun i => [i + 10])),
       FileEffect.fileReceivedMsg "bob".data "fidW".data "COMPLETE".data] :=
  client_reassembly_spec 3 (fun i => [i + 10]) [2, 0, 1, 1] "bob".data
    "f.txt".data "bob".data "fidW".data 0 5 (by decide) (by decide) (by decide)

/-! ## Server POST fan-out (`server.handle_message`, POST branch)

The server forwards a POST to exactly the registered clients whose own
`follows` list contains the author, after checking the author is registered
and the token decodes as `author|expiry|broadcast` and is not expired
(`timestamp = int(parts[1]) - ttl; now > timestamp + ttl` is expiry by
`int(parts[1])`). -/

structure ClientRec where
  ip : Str
  port : Nat
  name : Str
  follows : List Str
  followers : List Str
  last_seen : Int
deriving DecidableEq

/-- The POST branch of `server.handle_message`: the list of user ids the raw
POST is forwarded to (in registry order); `[]` when the message is rejected. -/
def server_handle_post (clients : List (Str × ClientRec)) (now : Int)
    (sender_id token : Str) (ttl : Int) : List Str :=
  match lookupA clients sender_id with
  | none => []
  | some _ =>
    match splitOnSep '|' token with
    | [u, es, sc] =>
      if u ≠ sender_id ∨ sc ≠ "broadcast".data then []
      else
        match parseInt es with
        | none => []
        | some e =>
          if now > e - ttl + ttl then []
          else (clients.filter fun p => decide (sender_id ∈ p.2.follows)).map Prod.fst
    | _ => []

/-- In an association list with duplicate-free keys, membership determines
the lookup. -/
theorem lookupA_of_mem_nodup {β : Type} (l : List (Str × β)) (k : Str) (v : β)
    (hnd : (l.map Prod.fst).Nodup) (hmem : (k, v) ∈ l) :
    lookupA l k = some v := by
  induction l with
  | nil => cases hmem
  | cons p rest ih =>
    obtain ⟨a, b⟩ := p
    rcases List.mem_cons.1 hmem with heq | hmem'
    · injection heq with h1 h2
      subst h1
      subst h2
      simp [lookupA]
    · have ha : a ≠ k := by
        intro h
        subst h
        have hmap : a ∈ rest.map Prod.fst := List.mem_map.2 ⟨(a, v), hmem', rfl⟩
        simp only [List.map_cons, List.nodup_cons] at hnd
        exact hnd.1 hmap
      simp only [lookupA, if_neg ha]
      exact ih (by simp only [List.map_cons, List.nodup_cons] at hnd; exact hnd.2)
        hmem'

/-- Claim C8: a POST from a registered author `A` with a well-formed,
unexpired `A|expiry|broadcast` token is forwarded exactly to the registered
clients whose own follow list contains `A` (in registry order), and a
registered client that does not follow `A` receives nothing. -/
theorem server_handle_post_spec (clients : List (Str × ClientRec)) (now : Int)
    (A es token : Str) (e ttl : Int) (info : ClientRec)
    (hreg : lookupA clients A = some info)
    (hsplit : splitOnSep '|' token = [A, es, "broadcast".data])
    (hparse : parseInt es = some e) (hvalid : now ≤ e)
    (hkeys : (clients.map Prod.fst).Nodup) :
    server_handle_post clients now A token ttl =
      (clients.filter fun p => decide (A ∈ p.2.follows)).map Prod.fst ∧
    ∀ uid infou, lookupA clients uid = some infou → A ∉ infou.follows →
      uid ∉ server_handle_post clients now A token ttl := by
  have hmain : server_handle_post clients now A token ttl =
      (clients.filter fun p => decide (A ∈ p.2.follows)).map Prod.fst := by
    simp only [server_handle_post, hreg, hsplit, hparse]
    rw [if_neg (by simp), if_neg (by omega : ¬ now > e - ttl + ttl)]
  refine ⟨hmain, ?_⟩
  intro uid infou hlku hnof hin
  rw [hmain] at hin
  obtain ⟨p, hp, hpe⟩ := List.mem_map.1 hin
  obtain ⟨k, v⟩ := p
  obtain ⟨hpmem, hpf⟩ := List.mem_filter.1 hp
  simp only at hpe
  subst hpe
  have hlk : lookupA clients k = some v :=
    lookupA_of_mem_nodup clients k v hkeys hpmem
  rw [hlku] at hlk
  obtain rfl : infou = v := by injection hlk
  exact hnof (of_decide_eq_true hpf)

/-- A three-client registry: `bob` follows `alice`; `carol` follows
no one. -/
def demoClients : List (Str × ClientRec) :=
  [("alice".data, ⟨"10.0.0.1".data, 1, "Alice".data, [], [], 0⟩),
   ("bob".data, ⟨"10.0.0.2".data, 2, "Bob".data, ["alice".data], [], 0⟩),
   ("carol".data, ⟨"10.0.0.3".data, 3, "Carol".data, [], [], 0⟩)]

/-- Claim C8 witness: `alice` posts with a valid broadcast token; the
forwarding set is exactly the followers filter (here `[bob]`), and any
registered non-follower is excluded. -/
theorem server_handle_post_spec_witness :
    server_handle_post demoClients 100 "alice".data
        "alice|2000|broadcast".data 3600 =
      (demoClients.filter fun p => decide ("alice".data ∈ p.2.follows)).map
        Prod.fst ∧
    ∀ uid infou, lookupA demoClients uid = some infou →
      "alice".data ∉ infou.follows →
      uid ∉ server_handle_post demoClients 100 "alice".data
        "alice|2000|broadcast".data 3600 :=
  server_handle_post_spec demoClients 100 "alice".data "2000".data
    "alice|2000|broadcast".data 2000 3600
    ⟨"10.0.0.1".data, 1, "Alice".data, [], [], 0⟩
    (by decide) (by decide) (by decide) (by decide) (by decide)

/-! ## File transfer — sender side (`client.py` main loop, outgoing check)

Each iteration of the client's main loop scans `outgoing_files`.  The first
`if` (status offered, `to_user` a key of `incoming_files`, that record
receiving) has a `pass` body and so has no effect; the second `if` promotes
EVERY transfer in status `offered` to `sending` ("Assume accepted for now")
and spawns `send_file_chunks` for it — without consulting any acceptance
signal. -/

structure OutFile where
  filename : Str
  to_user : Str
  total_chunks : Nat
  sent_chunks : Nat
  status : Str
deriving DecidableEq

/-- One pass of the outgoing-transfer check in `client.main`: the updated
`outgoing_files` table and the file ids whose chunk transmission is started
(the `send_file_chunks` threads spawned).  The `incoming` table is read only
by the no-op first `if`. -/
def check_outgoing (incoming : List (Str × FileInfo))
    (outgoing : List (Str × OutFile)) :
    List (Str × OutFile) × List Str :=
  (outgoing.map fun p =>
    if p.2.status = "offered".data then
      (p.1, { p.2 with status := "sending".data })
    else p,
   (outgoing.filter fun p => decide (p.2.status = "offered".data)).map Prod.fst)

/-- Claim C9 counterexample: a just-offered transfer with an EMPTY incoming
table — no acceptance was ever signalled, no transfer is in `receiving` —
has its chunk transmission started on the very next main-loop iteration. -/
theorem chunks_before_acceptance_counterexample :
    (check_outgoing []
        [("f1".data, ⟨"a.txt".data, "bob".data, 3, 0, "offered".data⟩)]).2 =
      ["f1".data] ∧
    (check_outgoing []
        [("f1".data, ⟨"a.txt".data, "bob".data, 3, 0, "offered".data⟩)]).1 =
      [("f1".data, ⟨"a.txt".data, "bob".data, 3, 0, "sending".data⟩)] := by
  exact ⟨by rfl, by rfl⟩

/-- Claim C9 (amended): chunk transmission is NOT gated on acceptance:
every outgoing transfer in status `offered` is promoted to `sending` and
has `send_file_chunks` spawned on the next main-loop pass, whatever the
incoming/acceptance state is (the result does not depend on `incoming` at
all). -/
theorem check_outgoing_starts_all_offered
    (incoming incoming' : List (Str × FileInfo))
    (outgoing : List (Str × OutFile)) (fid : Str) (o : OutFile)
    (hmem : (fid, o) ∈ outgoing) (hoff : o.status = "offered".data) :
    fid ∈ (check_outgoing incoming outgoing).2 ∧
    check_outgoing incoming outgoing = check_outgoing incoming' outgoing := by
  refine ⟨?_, rfl⟩
  unfold check_outgoing
  exact List.mem_map.2 ⟨(fid, o),
    List.mem_filter.2 ⟨hmem, decide_eq_true hoff⟩, rfl⟩

/-- Claim C9 witness. -/
theorem check_outgoing_starts_all_offered_witness :
    "f2".data ∈ (check_outgoing []
      [("f2".data, ⟨"b.txt".data, "bob".data, 2, 0, "offered".data⟩)]).2 ∧
    check_outgoing []
        [("f2".data, ⟨"b.txt".data, "bob".data, 2, 0, "offered".data⟩)] =
      check_outgoing
        [("f2".data, ⟨"bob".data, "b.txt".data, 2, [], 0, FStatus.receiving⟩)]
        [("f2".data, ⟨"b.txt".data, "bob".data, 2, 0, "offered".data⟩)] :=
  check_outgoing_starts_all_offered []
    [("f2".data, ⟨"bob".data, "b.txt".data, 2, [], 0, FStatus.receiving⟩)]
    [("f2".data, ⟨"b.txt".data, "bob".data, 2, 0, "offered".data⟩)]
    "f2".data ⟨"b.txt".data, "bob".data, 2, 0, "offered".data⟩
    (by decide) (by decide)

/-! ## Header codec (`client.py` `listen_loop` parser, message builders)

The builders render one `KEY: VALUE` header per line joined by `'\n'`;
`send_udp` appends the `"\n\n"` terminator.  The parser (`client.py`)
strips the datagram, restores the terminator, splits into lines, strips
each, drops blanks, and fills an insertion-ordered dict from the
`split(":", 1)` pieces, stripping key and value. -/

/-- `build(headerList)`: `"\n".join("k: v" lines)` plus the terminator
`send_udp` appends. -/
def build_message (hs : List (Str × Str)) : Str :=
  joinNl (hs.map fun p => p.1 ++ ": ".data ++ p.2) ++ "\n\n".data

/-- Python `headers[k] = v`: overwrite in place, else append (CPython
insertion order). -/
def dictInsert (acc : List (Str × Str)) (k v : Str) : List (Str × Str) :=
  if k ∈ acc.map Prod.fst then
    acc.map fun p => if p.1 = k then (k, v) else p
  else acc ++ [(k, v)]

/-- One line of the parser's loop body. -/
def parseStep (acc : List (Str × Str)) (line : Str) : List (Str × Str) :=
  if ':' ∈ line then
    dictInsert acc (pyStrip (splitFirstColon line).1)
      (pyStrip (splitFirstColon line).2)
  else acc

/-- `[line.strip() for line in raw.splitlines() if line.strip()]`. -/
def parseLines (raw : Str) : List Str :=
  ((splitOnNl raw).map pyStrip).filter fun l => decide (l ≠ [])

/-- `parse(rawBytes)` of the client: strip, restore the terminator, split
into stripped non-blank lines, fold into the ordered header dict. -/
def parse_headers (raw : Str) : List (Str × Str) :=
  (parseLines
    (if endsWithNlNl (pyStrip raw) then pyStrip raw
     else pyStrip raw ++ "\n\n".data)).foldl parseStep []

/-- Claim C6 counterexample: the single header `("K", "v ")` — whose key
and value contain no newline and no blank line — does not round-trip: the
parser's stripping turns the value `"v "` into `"v"`. -/
theorem parse_build_counterexample :
    parse_headers (build_message [("K".data, "v ".data)]) =
      [("K".data, "v".data)] ∧
    parse_headers (build_message [("K".data, "v ".data)]) ≠
      [("K".data, "v ".data)] := by
  exact ⟨by decide, by decide⟩

/-- A key the parser can reproduce: non-empty, free of `':'` and of every
character `str.splitlines` breaks on, with non-whitespace first and last
characters. -/
def goodKey (k : Str) : Prop :=
  k ≠ [] ∧ (∀ c ∈ k, isPyLineBreak c = false ∧ c ≠ ':') ∧
  isPySpace (k.headD 'x') = false ∧ isPySpace (k.reverse.headD 'x') = false

/-- A value the parser can reproduce (a `':'` inside a value is fine). -/
def goodVal (v : Str) : Prop :=
  v ≠ [] ∧ (∀ c ∈ v, isPyLineBreak c = false) ∧
  isPySpace (v.headD 'x') = false ∧ isPySpace (v.reverse.headD 'x') = false

instance : DecidablePred goodKey := fun k => by
  unfold goodKey
  infer_instance

instance : DecidablePred goodVal := fun v => by
  unfold goodVal
  infer_instance

theorem headD_append (a b : Str) (c : Char) (h : a ≠ []) :
    (a ++ b).headD c = a.headD c := by
  cases a with
  | nil => exact absurd rfl h
  | cons x xs => rfl

/-- Dropping leading whitespace does nothing when the first character is
not whitespace. -/
theorem stripLeft_eq_self (l : Str) (h : isPySpace (l.headD 'x') = false) :
    stripLeft l = l := by
  cases l with
  | nil => rfl
  | cons c cs =>
    simp only [List.headD_cons] at h
    simp [stripLeft, List.dropWhile_cons, h]

/-- Dropping trailing whitespace does nothing when the last character is
not whitespace. -/
theorem stripRight_eq_self (l : Str) (h : isPySpace (l.reverse.headD 'x') = false) :
    stripRight l = l := by
  unfold stripRight
  have hdw : l.reverse.dropWhile isPySpace = l.reverse := by
    cases hr : l.reverse with
    | nil => rfl
    | cons c cs =>
      rw [hr] at h
      simp only [List.headD_cons] at h
      simp [List.dropWhile_cons, h]
  rw [hdw, List.reverse_reverse]

theorem pyStrip_eq_self (l : Str) (h1 : isPySpace (l.headD 'x') = false)
    (h2 : isPySpace (l.reverse.headD 'x') = false) : pyStrip l = l := by
  unfold pyStrip
  rw [stripLeft_eq_self l h1, stripRight_eq_self l h2]

/-- Stripping `s ++ "\n\n"` recovers `s` when `s` starts and ends with
non-whitespace. -/
theorem pyStrip_append_nlnl (s : Str) (hne : s ≠ [])
    (h1 : isPySpace (s.headD 'x') = false)
    (h2 : isPySpace (s.reverse.headD 'x') = false) :
    pyStrip (s ++ "\n\n".data) = s := by
  unfold pyStrip
  rw [stripLeft_eq_self _ (by rw [headD_append _ _ _ hne]; exact h1)]
  unfold stripRight
  have hrev : (s ++ "\n\n".data).reverse = '\n' :: '\n' :: s.reverse := by
    rw [List.reverse_append]
    rfl
  rw [hrev, List.dropWhile_cons, if_pos (by decide), List.dropWhile_cons,
    if_pos (by decide)]
  have hdw : s.reverse.dropWhile isPySpace = s.reverse := by
    cases hr : s.reverse with
    | nil => rfl
    | cons c cs =>
      rw [hr] at h2
      simp only [List.headD_cons] at h2
      simp [List.dropWhile_cons, h2]
  rw [hdw, List.reverse_reverse]

/-- A string that ends in a non-whitespace character does not end in
`"\n\n"`. -/
theorem endsWithNlNl_eq_false (s : Str)
    (h : isPySpace (s.reverse.headD 'x') = false) : endsWithNlNl s = false := by
  unfold endsWithNlNl
  cases hr : s.reverse with
  | nil => rfl
  | cons c cs =>
    rw [hr] at h
    simp only [List.headD_cons] at h
    have hc : c ≠ '\n' := by
      intro he
      subst he
      exact absurd h (by decide)
    cases cs with
    | nil => rfl
    | cons c2 cs2 => simp [hc]


theorem joinNl_cons (l : Str) (rest : List Str) (h : rest ≠ []) :
    joinNl (l :: rest) = l ++ '\n' :: joinNl rest := by
  cases rest with
  | nil => exact absurd rfl h
  | cons a t => rfl

/-- Unfolding equation for `splitOnSep` on a cons cell. -/
theorem splitOnSep_cons (sep c : Char) (rest : Str) :
    splitOnSep sep (c :: rest) =
      if c = sep then [] :: splitOnSep sep rest
      else
        match splitOnSep sep rest with
        | l :: ls => (c :: l) :: ls
        | [] => [[c]] := by
  rfl

theorem splitOnSep_not_mem (sep : Char) (s : Str) (h : sep ∉ s) :
    splitOnSep sep s = [s] := by
  induction s with
  | nil => rfl
  | cons c cs ih =>
    have hc : ¬ c = sep := by
      intro he
      subst he
      exact h (List.mem_cons_self c cs)
    rw [splitOnSep_cons, if_neg hc, ih fun hm => h (List.mem_cons_of_mem c hm)]

theorem splitOnSep_append_cons (sep : Char) (xs ys : Str) (h : sep ∉ xs) :
    splitOnSep sep (xs ++ sep :: ys) = xs :: splitOnSep sep ys := by
  induction xs with
  | nil =>
    show splitOnSep sep (sep :: ys) = [] :: splitOnSep sep ys
    rw [splitOnSep_cons, if_pos rfl]
  | cons c cs ih =>
    have hc : ¬ c = sep := by
      intro he
      subst he
      exact h (List.mem_cons_self c cs)
    have ih' := ih fun hm => h (List.mem_cons_of_mem c hm)
    show splitOnSep sep (c :: (cs ++ sep :: ys)) = (c :: cs) :: splitOnSep sep ys
    rw [splitOnSep_cons, if_neg hc, ih']

/-- `splitlines` inverts `"\n".join` on `'\n'`-free lines. -/
theorem splitOnNl_joinNl (lines : List Str) (h : ∀ l ∈ lines, '\n' ∉ l)
    (hne : lines ≠ []) : splitOnNl (joinNl lines) = lines := by
  induction lines with
  | nil => exact absurd rfl hne
  | cons l rest ih =>
    cases rest with
    | nil => exact splitOnSep_not_mem '\n' l (h l (List.mem_cons_self l []))
    | cons a t =>
      rw [joinNl_cons l (a :: t) (by simp)]
      unfold splitOnNl
      rw [splitOnSep_append_cons '\n' l (joinNl (a :: t))
        (h l (List.mem_cons_self l (a :: t)))]
      have ihr := ih (fun x hx => h x (List.mem_cons_of_mem l hx)) (by simp)
      unfold splitOnNl at ihr
      rw [ihr]

/-- The terminator corresponds to two extra empty lines. -/
theorem joinNl_append_two_empty (lines : List Str) (hne : lines ≠ []) :
    joinNl (lines ++ [[], []]) = joinNl lines ++ "\n\n".data := by
  induction lines with
  | nil => exact absurd rfl hne
  | cons l rest ih =>
    cases rest with
    | nil => rfl
    | cons a t =>
      have h1 : joinNl ((l :: a :: t) ++ [[], []]) =
          l ++ '\n' :: joinNl ((a :: t) ++ [[], []]) := by
        rw [List.cons_append]
        exact joinNl_cons l ((a :: t) ++ [[], []]) (by simp)
      rw [h1, ih (by simp), joinNl_cons l (a :: t) (by simp)]
      simp

/-- A rendered header line, `k ++ ": " ++ v` in cons form. -/
def lineOf (p : Str × Str) : Str := p.1 ++ ':' :: ' ' :: p.2

theorem lineOf_ne_nil (p : Str × Str) : lineOf p ≠ [] := by
  unfold lineOf
  simp

theorem build_message_eq (hs : List (Str × Str)) :
    build_message hs = joinNl (hs.map lineOf) ++ "\n\n".data := by
  unfold build_message
  have hfun : (fun p : Str × Str => p.1 ++ ": ".data ++ p.2) = lineOf := by
    funext p
    unfold lineOf
    rw [List.append_assoc]
    rfl
  rw [hfun]

/-- Splitting a line at its first colon recovers the colon-free part before
it. -/
theorem splitFirstColon_append (k rest : Str) (h : ':' ∉ k) :
    splitFirstColon (k ++ ':' :: rest) = (k, rest) := by
  induction k with
  | nil =>
    show splitFirstColon (':' :: rest) = ([], rest)
    unfold splitFirstColon
    rw [if_pos rfl]
  | cons c cs ih =>
    have hc : ¬ c = ':' := by
      intro he
      subst he
      exact h (List.mem_cons_self _ cs)
    have ih' := ih fun hm => h (List.mem_cons_of_mem c hm)
    show splitFirstColon (c :: (cs ++ ':' :: rest)) = (c :: cs, rest)
    unfold splitFirstColon
    rw [if_neg hc, ih']

/-- The head character of a header line is the key's head. -/
theorem lineOf_headD (k v : Str) (hk : k ≠ []) :
    ((k ++ ':' :: ' ' :: v).headD 'x') = k.headD 'x' :=
  headD_append k (':' :: ' ' :: v) 'x' hk

/-- The last character of a header line is the value's last character. -/
theorem lineOf_reverse_headD (k v : Str) (hv : v ≠ []) :
    ((k ++ ':' :: ' ' :: v).reverse.headD 'x') = v.reverse.headD 'x' := by
  have h1 : (k ++ ':' :: ' ' :: v).reverse =
      v.reverse ++ ([' ', ':'] ++ k.reverse) := by
    rw [List.reverse_append]
    simp
  rw [h1, headD_append _ _ _ (by simp [hv])]

/-- A good header line is fixed by `strip`. -/
theorem pyStrip_lineOf (k v : Str) (hk : goodKey k) (hv : goodVal v) :
    pyStrip (k ++ ':' :: ' ' :: v) = k ++ ':' :: ' ' :: v := by
  obtain ⟨hk1, _, hk3, _⟩ := hk
  obtain ⟨hv1, _, _, hv4⟩ := hv
  exact pyStrip_eq_self _ (by rw [lineOf_headD k v hk1]; exact hk3)
    (by rw [lineOf_reverse_headD k v hv1]; exact hv4)

/-- Stripping ` ` ++ v recovers v for a good value. -/
theorem pyStrip_space_cons (v : Str) (hv : goodVal v) :
    pyStrip (' ' :: v) = v := by
  obtain ⟨hv1, _, hv3, hv4⟩ := hv
  unfold pyStrip
  have hleft : stripLeft (' ' :: v) = v := by
    unfold stripLeft
    rw [List.dropWhile_cons, if_pos (by decide)]
    cases hvv : v with
    | nil => rfl
    | cons c cs =>
      rw [hvv] at hv3
      simp only [List.headD_cons] at hv3
      simp [List.dropWhile_cons, hv3]
  rw [hleft, stripRight_eq_self v hv4]

/-- The first character of the joined header block is the first key's first
character. -/
theorem joinNl_headD (hs : List (Str × Str)) (hne : hs ≠ [])
    (hgood : ∀ p ∈ hs, goodKey p.1) :
    isPySpace ((joinNl (hs.map lineOf)).headD 'x') = false := by
  cases hs with
  | nil => exact absurd rfl hne
  | cons p rest =>
    obtain ⟨hk1, _, hk3, _⟩ := hgood p (List.mem_cons_self p rest)
    have hext : ∃ t, joinNl ((p :: rest).map lineOf) = lineOf p ++ t := by
      cases rest with
      | nil => exact ⟨[], by simp [joinNl]⟩
      | cons a tl => exact ⟨'\n' :: joinNl ((a :: tl).map lineOf), rfl⟩
    obtain ⟨t, ht⟩ := hext
    rw [ht]
    have h2 : (lineOf p ++ t).headD 'x' = (lineOf p).headD 'x' :=
      headD_append _ _ _ (lineOf_ne_nil p)
    rw [h2]
    unfold lineOf
    rw [headD_append _ _ _ hk1]
    exact hk3

/-- The last character of the joined header block is the last value's last
character. -/
theorem joinNl_reverse_headD (hs : List (Str × Str)) (hne : hs ≠ [])
    (hgood : ∀ p ∈ hs, goodVal p.2) :
    isPySpace ((joinNl (hs.map lineOf)).reverse.headD 'x') = false := by
  induction hs with
  | nil => exact absurd rfl hne
  | cons p rest ih =>
    cases hr : rest with
    | nil =>
      subst hr
      obtain ⟨hv1, _, _, hv4⟩ := hgood p (List.mem_cons_self p [])
      simp only [List.map_cons, List.map_nil]
      rw [show joinNl [lineOf p] = lineOf p from rfl]
      unfold lineOf
      rw [lineOf_reverse_headD p.1 p.2 hv1]
      exact hv4
    | cons a tl =>
      subst hr
      have hjoin : joinNl ((p :: a :: tl).map lineOf) =
          lineOf p ++ '\n' :: joinNl ((a :: tl).map lineOf) := by
        simp only [List.map_cons]
        exact joinNl_cons _ _ (by simp)
      rw [hjoin, List.reverse_append]
      have hrec := ih (by simp) fun q hq => hgood q (List.mem_cons_of_mem p hq)
      have hne2 : (joinNl ((a :: tl).map lineOf)).reverse ≠ [] := by
        intro hnil
        have : joinNl ((a :: tl).map lineOf) = [] := by
          have := congrArg List.reverse hnil
          simpa using this
        have hext : ∃ t, joinNl ((a :: tl).map lineOf) = lineOf a ++ t := by
          cases tl with
          | nil => exact ⟨[], by simp [joinNl]⟩
          | cons b tb => exact ⟨'\n' :: joinNl ((b :: tb).map lineOf), rfl⟩
        obtain ⟨t, ht⟩ := hext
        rw [ht] at this
        exact lineOf_ne_nil a (List.append_eq_nil.1 this).1
      rw [show ('\n' :: joinNl ((a :: tl).map lineOf)).reverse =
          (joinNl ((a :: tl).map lineOf)).reverse ++ ['\n'] from by simp]
      rw [List.append_assoc, headD_append _ _ _ hne2]
      exact hrec

theorem nl_not_mem_lineOf (p : Str × Str) (hk : goodKey p.1) (hv : goodVal p.2) :
    '\n' ∉ lineOf p := by
  unfold lineOf
  intro hmem
  rcases List.mem_append.1 hmem with h | h
  · exact absurd (hk.2.1 '\n' h).1 (by decide)
  · rcases List.mem_cons.1 h with he | h
    · exact absurd he (by decide)
    · rcases List.mem_cons.1 h with he | h
      · exact absurd he (by decide)
      · exact absurd (hv.2.1 '\n' h) (by decide)

/-- The line stage of the parser inverts the builder's line rendering. -/
theorem parseLines_build (hs : List (Str × Str)) (hne : hs ≠ [])
    (hgood : ∀ p ∈ hs, goodKey p.1 ∧ goodVal p.2) :
    parseLines (joinNl (hs.map lineOf) ++ "\n\n".data) = hs.map lineOf := by
  unfold parseLines
  have hsplit : splitOnNl (joinNl (hs.map lineOf) ++ "\n\n".data) =
      hs.map lineOf ++ [[], []] := by
    rw [← joinNl_append_two_empty (hs.map lineOf) (by simpa using hne)]
    apply splitOnNl_joinNl
    · intro l hl
      rcases List.mem_append.1 hl with hl | hl
      · obtain ⟨p, hp, rfl⟩ := List.mem_map.1 hl
        exact nl_not_mem_lineOf p (hgood p hp).1 (hgood p hp).2
      · rcases List.mem_cons.1 hl with rfl | hl
        · exact List.not_mem_nil '\n'
        · rcases List.mem_cons.1 hl with rfl | hl
          · exact List.not_mem_nil '\n'
          · cases hl
    · simp
  rw [hsplit, List.map_append, List.filter_append]
  have h1 : (hs.map lineOf).map pyStrip = hs.map lineOf := by
    rw [List.map_map]
    apply List.map_congr_left
    intro p hp
    exact pyStrip_lineOf p.1 p.2 (hgood p hp).1 (hgood p hp).2
  have h2 : (([], []) : Str × Str) = ([], []) := rfl
  rw [h1]
  have h3 : (hs.map lineOf).filter (fun l => decide (l ≠ [])) = hs.map lineOf := by
    rw [List.filter_eq_self]
    intro a ha
    obtain ⟨p, hp, rfl⟩ := List.mem_map.1 ha
    exact decide_eq_true (lineOf_ne_nil p)
  rw [h3]
  simp [pyStrip, stripLeft, stripRight]

/-- One parser-loop step on a good rendered line with a fresh key appends
the pair. -/
theorem parseStep_lineOf (acc : List (Str × Str)) (k v : Str)
    (hk : goodKey k) (hv : goodVal v) (hnot : k ∉ acc.map Prod.fst) :
    parseStep acc (lineOf (k, v)) = acc ++ [(k, v)] := by
  unfold parseStep lineOf
  have hcolon : ':' ∈ (k, v).1 ++ ':' :: ' ' :: (k, v).2 :=
    List.mem_append.2 (Or.inr (List.mem_cons_self ':' (' ' :: (k, v).2)))
  rw [if_pos hcolon]
  have hcolk : ':' ∉ k := fun hm => (hk.2.1 ':' hm).2 rfl
  have hsplitc := splitFirstColon_append k (' ' :: v) hcolk
  rw [hsplitc]
  have hsk : pyStrip k = k := pyStrip_eq_self k hk.2.2.1 hk.2.2.2
  have hsv : pyStrip (' ' :: v) = v := pyStrip_space_cons v hv
  rw [show ((k, ' ' :: v).1 : Str) = k from rfl,
    show ((k, ' ' :: v).2 : Str) = ' ' :: v from rfl, hsk, hsv]
  unfold dictInsert
  rw [if_neg hnot]

/-- The parser's fold over good rendered lines with duplicate-free keys
appends all the pairs in order. -/
theorem parseFold_append (hs : List (Str × Str)) :
    ∀ acc, (∀ p ∈ hs, goodKey p.1 ∧ goodVal p.2) →
      (∀ p ∈ hs, p.1 ∉ acc.map Prod.fst) →
      (hs.map Prod.fst).Nodup →
      (hs.map lineOf).foldl parseStep acc = acc ++ hs := by
  induction hs with
  | nil => intro acc _ _ _; simp
  | cons p rest ih =>
    intro acc hgood hdisj hnd
    obtain ⟨k, v⟩ := p
    simp only [List.map_cons, List.foldl_cons]
    rw [parseStep_lineOf acc k v (hgood (k, v) (List.mem_cons_self _ _)).1
      (hgood (k, v) (List.mem_cons_self _ _)).2
      (hdisj (k, v) (List.mem_cons_self _ _))]
    have hnd' : (rest.map Prod.fst).Nodup := by
      simp only [List.map_cons, List.nodup_cons] at hnd
      exact hnd.2
    have hknotin : k ∉ rest.map Prod.fst := by
      simp only [List.map_cons, List.nodup_cons] at hnd
      exact hnd.1
    have hdisj' : ∀ q ∈ rest, q.1 ∉ (acc ++ [(k, v)]).map Prod.fst := by
      intro q hq hmem
      rw [List.map_append] at hmem
      rcases List.mem_append.1 hmem with h | h
      · exact hdisj q (List.mem_cons_of_mem _ hq) h
      · rcases List.mem_cons.1 h with he | h
        · have hqk : q.1 = k := he
          exact hknotin (hqk ▸ List.mem_map.2 ⟨q, hq, rfl⟩)
        · cases h
    rw [ih (acc ++ [(k, v)]) (fun q hq => hgood q (List.mem_cons_of_mem _ hq))
      hdisj' hnd']
    simp

/-- Claim C6 (amended): `parse(build(headers)) == headers` holds for every
header list with duplicate-free keys whose keys and values are non-empty,
contain no line-break character, start and end with non-whitespace (the
parser strips each line, key and value, so leading/trailing whitespace — as
in the counterexample — cannot round-trip), and whose keys contain no
`':'`. -/
theorem parse_build_roundtrip (hs : List (Str × Str))
    (hgood : ∀ p ∈ hs, goodKey p.1 ∧ goodVal p.2)
    (hnd : (hs.map Prod.fst).Nodup) :
    parse_headers (build_message hs) = hs := by
  cases hs with
  | nil => decide
  | cons p rest =>
    rw [build_message_eq]
    have hh := joinNl_headD (p :: rest) (by simp)
      fun q hq => (hgood q hq).1
    have hr := joinNl_reverse_headD (p :: rest) (by simp)
      fun q hq => (hgood q hq).2
    have hsne : joinNl ((p :: rest).map lineOf) ≠ [] := by
      have hext : ∃ t, joinNl ((p :: rest).map lineOf) = lineOf p ++ t := by
        cases rest with
        | nil => exact ⟨[], by simp [joinNl]⟩
        | cons a tl => exact ⟨'\n' :: joinNl ((a :: tl).map lineOf), rfl⟩
      obtain ⟨t, ht⟩ := hext
      rw [ht]
      intro hnil
      exact lineOf_ne_nil p (List.append_eq_nil.1 hnil).1
    have hstrip : pyStrip (joinNl ((p :: rest).map lineOf) ++ "\n\n".data) =
        joinNl ((p :: rest).map lineOf) :=
      pyStrip_append_nlnl _ hsne hh hr
    unfold parse_headers
    rw [hstrip, endsWithNlNl_eq_false _ hr]
    rw [if_neg (by simp)]
    rw [parseLines_build (p :: rest) (by simp) hgood]
    rw [parseFold_append (p :: rest) [] hgood (by simp) hnd]
    rfl

/-- Claim C6 witness: a two-header message round-trips. -/
theorem parse_build_roundtrip_witness :
    parse_headers (build_message
        [("TYPE".data, "DM".data), ("FROM".data, "alice@10.0.0.1".data)]) =
      [("TYPE".data, "DM".data), ("FROM".data, "alice@10.0.0.1".data)] :=
  parse_build_roundtrip
    [("TYPE".data, "DM".data), ("FROM".data, "alice@10.0.0.1".data)]
    (by decide) (by decide)
